import Mathlib

/-!
Shallow embedding of the document-scanner core (`src/scanner.py`) and proofs
about its specification claims.

Modelling conventions:
* 2D points (numpy float32 pairs) are modelled as pairs of rationals.
* Images (numpy arrays of BGR pixels) are modelled as a width, a height and a
  pixel function; each channel is a natural number (8-bit value).
* The external OpenCV primitives with no influence on the claims
  (`cv2.getPerspectiveTransform`, the per-pixel resampler of
  `cv2.warpPerspective`, the BGR/LAB colour maps of `cv2.cvtColor` and the
  CLAHE channel transform) are taken as parameters; only their documented
  size contracts are baked in (`warpPerspective` returns an image of exactly
  the requested size, `cvtColor` and CLAHE preserve dimensions).
* `cv2.convertScaleAbs` and `cv2.copyMakeBorder` are modelled concretely from
  their documented behaviour (`saturate_cast<uchar>(|alpha*v + beta|)` with
  round-half-to-even, and the assertion rejecting negative border widths).
* Python exceptions are modelled with `Except`: `Err.ValueError` stands for
  numpy's `ValueError` (argmin of an empty sequence), `Err.InvalidInput` for
  the OpenCV error raised on a negative border (the spec's `InvalidInput`).
-/

namespace DocScanner

/-- A 2D point (x, y) in source-image pixel space. -/
abbrev Point : Type := ℚ × ℚ

/-- A pixel: three 8-bit channels (BGR). -/
abbrev Pix : Type := ℕ × ℕ × ℕ

/-- An image: a dense grid of pixels with a width and a height. -/
structure Image where
  width : ℕ
  height : ℕ
  pix : ℕ → ℕ → Pix

/-- Failure modes of the embedded code: `ValueError` models numpy's
`ValueError` (argmin/argmax of an empty sequence); `InvalidInput` models the
spec's `InvalidInput` error class (raised by OpenCV for a negative border). -/
inductive Err : Type where
  | InvalidInput : Err
  | ValueError : Err
deriving DecidableEq

/-- Accumulator loop of `np.argmin`: `bi` is the index of the best (smallest)
value seen so far, `bv` its value, `i` the index of the head of `l`.  A later
value replaces the best one only when strictly smaller, so the FIRST smallest
index wins, exactly as `np.argmin` documents. -/
def argminGo : List ℚ → ℕ → ℕ → ℚ → ℕ
  | [], _, bi, _ => bi
  | v :: vs, i, bi, bv =>
    if v < bv then argminGo vs (i + 1) i v else argminGo vs (i + 1) bi bv

/-- `np.argmin`: index of the first occurrence of the minimum value
(0 on the empty list, where numpy instead raises `ValueError`; the callers
below guard that case explicitly). -/
def argminQ : List ℚ → ℕ
  | [] => 0
  | v :: vs => argminGo vs 1 0 v

/-- Accumulator loop of `np.argmax`: replaces the best value only when the new
value is strictly larger, so the first largest index wins. -/
def argmaxGo : List ℚ → ℕ → ℕ → ℚ → ℕ
  | [], _, bi, _ => bi
  | v :: vs, i, bi, bv =>
    if bv < v then argmaxGo vs (i + 1) i v else argmaxGo vs (i + 1) bi bv

/-- `np.argmax`: index of the first occurrence of the maximum value. -/
def argmaxQ : List ℚ → ℕ
  | [] => 0
  | v :: vs => argmaxGo vs 1 0 v

/-- The ordered quadrilateral returned by `order_points`:
rows 0..3 of the `rect` array, i.e. (top-left, top-right, bottom-right,
bottom-left). -/
structure Rect where
  tl : Point
  tr : Point
  br : Point
  bl : Point
deriving DecidableEq

/-- The four rows of the `rect` array in row order, as `order_points` returns
them (top-left, top-right, bottom-right, bottom-left). -/
def Rect.toList (r : Rect) : List Point := [r.tl, r.tr, r.br, r.bl]

/-- `scanner.order_points`: `s = x + y` per point, `rect[0] = pts[argmin s]`,
`rect[2] = pts[argmax s]`; `diff = y - x` per point (`np.diff` along axis 1),
`rect[1] = pts[argmin diff]`, `rect[3] = pts[argmax diff]`. -/
def order_points (pts : List Point) : Rect :=
  let s := pts.map (fun p => p.1 + p.2)
  let d := pts.map (fun p => p.2 - p.1)
  { tl := pts.getD (argminQ s) (0, 0)
    br := pts.getD (argmaxQ s) (0, 0)
    tr := pts.getD (argminQ d) (0, 0)
    bl := pts.getD (argmaxQ d) (0, 0) }

/-- Squared euclidean distance between two points, i.e. the radicand
`(p0-q0)**2 + (p1-q1)**2` computed by `four_point_transform`. -/
def dist2 (p q : Point) : ℚ := (p.1 - q.1) ^ 2 + (p.2 - q.2) ^ 2

/-- `int(np.sqrt(q))` for a nonnegative rational radicand `q`: the square
root truncated to an integer, i.e. `Nat.sqrt` of the floor of `q`. -/
def intSqrt (q : ℚ) : ℕ := Nat.sqrt (⌊q⌋).toNat

/-- `scanner.four_point_transform`.  `getPT` stands for
`cv2.getPerspectiveTransform` (producing an abstract matrix of type `Mt`) and
`warpPix` for the per-pixel resampler of `cv2.warpPerspective`; the output
image has exactly the size `(maxWidth, maxHeight)` passed to
`cv2.warpPerspective`, which is its documented contract.  An empty corner
list makes `np.argmin` inside `order_points` raise `ValueError`; every
nonempty list goes through. -/
def four_point_transform {Mt : Type} (getPT : Rect → Rect → Mt)
    (warpPix : Image → Mt → ℕ → ℕ → Pix) (image : Image) (pts : List Point) :
    Except Err Image :=
  if pts = [] then .error .ValueError
  else
    let rect := order_points pts
    let maxWidth0 := max (intSqrt (dist2 rect.br rect.bl))
      (intSqrt (dist2 rect.tr rect.tl))
    let maxHeight0 := max (intSqrt (dist2 rect.tr rect.br))
      (intSqrt (dist2 rect.tl rect.bl))
    let maxWidth := max maxWidth0 100
    let maxHeight := max maxHeight0 100
    let dst : Rect :=
      { tl := (0, 0)
        tr := ((maxWidth : ℚ) - 1, 0)
        br := ((maxWidth : ℚ) - 1, (maxHeight : ℚ) - 1)
        bl := (0, (maxHeight : ℚ) - 1) }
    let M := getPT rect dst
    .ok ⟨maxWidth, maxHeight, fun x y => warpPix image M x y⟩

/-- `cvRound` as used by OpenCV's `saturate_cast<uchar>`: round to nearest,
halves to even. -/
def rnd (q : ℚ) : ℤ :=
  if q - ⌊q⌋ < 1 / 2 then ⌊q⌋
  else if 1 / 2 < q - ⌊q⌋ then ⌊q⌋ + 1
  else if ⌊q⌋ % 2 = 0 then ⌊q⌋ else ⌊q⌋ + 1

/-- One channel of `cv2.convertScaleAbs`: scale, take the absolute value and
saturate to 8 bits, `saturate_cast<uchar>(|alpha*v + beta|)` (documented
behaviour of `cv2.convertScaleAbs`). -/
def convertScaleAbsChan (a b : ℚ) (v : ℕ) : ℕ := min (rnd |a * v + b|).toNat 255

/-- `cv2.convertScaleAbs` on one pixel: the same channel map applied uniformly
to all three channels. -/
def convertScaleAbsPix (a b : ℚ) (p : Pix) : Pix :=
  (convertScaleAbsChan a b p.1, convertScaleAbsChan a b p.2.1,
    convertScaleAbsChan a b p.2.2)

/-- The per-pixel intensity map claimed by the specification for the global
brightness/contrast step: `clamp(alpha*input + beta, 0, 255)`.  This
definition follows the spec wording (with the same rounding as the code) so
that it can be compared against `convertScaleAbsChan`, which is translated
from the code. -/
def specClampChan (a b : ℚ) (v : ℕ) : ℕ := (min (max (rnd (a * v + b)) 0) 255).toNat

/-- `cv2.cvtColor` with an abstract per-pixel colour map `f`: a colour-space
conversion maps every pixel independently and preserves dimensions. -/
def cvtColorPix (f : Pix → Pix) (img : Image) : Image :=
  ⟨img.width, img.height, fun x y => f (img.pix x y)⟩

/-- Steps 1-3 of `enhance_document`: convert BGR to LAB (`bgr2lab`, abstract
per-pixel map), apply CLAHE to the L channel (`claheL`, abstract whole-channel
transform receiving the width, the height and the channel; CLAHE preserves
dimensions), merge with the untouched A/B channels and convert back
(`lab2bgr`). -/
def claheStage (bgr2lab lab2bgr : Pix → Pix)
    (claheL : ℕ → ℕ → (ℕ → ℕ → ℕ) → ℕ → ℕ → ℕ) (image : Image) : Image :=
  let lab := cvtColorPix bgr2lab image
  let lchan := claheL lab.width lab.height (fun x y => (lab.pix x y).1)
  let merged : Image :=
    ⟨lab.width, lab.height,
      fun x y => (lchan x y, (lab.pix x y).2.1, (lab.pix x y).2.2)⟩
  cvtColorPix lab2bgr merged

/-- `scanner.enhance_document`: the CLAHE stage always runs; the global
brightness/contrast remap (`cv2.convertScaleAbs` with `beta = brightness`,
`alpha = 1 + contrast/100`) runs only when `brightness != 0 or contrast != 0`. -/
def enhance_document (bgr2lab lab2bgr : Pix → Pix)
    (claheL : ℕ → ℕ → (ℕ → ℕ → ℕ) → ℕ → ℕ → ℕ) (image : Image)
    (brightness contrast : ℤ) : Image :=
  let enhanced := claheStage bgr2lab lab2bgr claheL image
  if brightness ≠ 0 ∨ contrast ≠ 0 then
    ⟨enhanced.width, enhanced.height,
      fun x y =>
        convertScaleAbsPix (1 + (contrast : ℚ) / 100) (brightness : ℚ)
          (enhanced.pix x y)⟩
  else enhanced

/-- `scanner.add_white_border`: `cv2.copyMakeBorder` with the same padding on
all four sides and a white constant fill.  OpenCV asserts that every border
width is nonnegative, raising an error (the spec's `InvalidInput`) otherwise;
for `padding >= 0` it returns a `(W+2p) x (H+2p)` image with the original
centred and white elsewhere. -/
def add_white_border (image : Image) (padding : ℤ) : Except Err Image :=
  if padding < 0 then .error .InvalidInput
  else
    let p := padding.toNat
    .ok ⟨image.width + 2 * p, image.height + 2 * p,
      fun x y =>
        if p ≤ x ∧ x < p + image.width ∧ p ≤ y ∧ y < p + image.height then
          image.pix (x - p) (y - p)
        else (255, 255, 255)⟩

/-- `scanner.process_document_from_array`: perspective transform, then the
enhancement iff `enhance` (with default brightness/contrast 0), then the
white border iff `add_border` (with default padding 20). -/
def process_document_from_array {Mt : Type} (getPT : Rect → Rect → Mt)
    (warpPix : Image → Mt → ℕ → ℕ → Pix) (bgr2lab lab2bgr : Pix → Pix)
    (claheL : ℕ → ℕ → (ℕ → ℕ → ℕ) → ℕ → ℕ → ℕ) (image_array : Image)
    (corners : List Point) (enhance add_border : Bool) : Except Err Image :=
  match four_point_transform getPT warpPix image_array corners with
  | .error e => .error e
  | .ok warped =>
    let warped :=
      if enhance then enhance_document bgr2lab lab2bgr claheL warped 0 0
      else warped
    if add_border then add_white_border warped 20 else .ok warped

/-! Concrete inputs used by witnesses and counterexamples. -/

/-- A trivial instance of `cv2.getPerspectiveTransform` for concrete runs. -/
def unitPT : Rect → Rect → Unit := fun _ _ => ()

/-- A trivial instance of the `cv2.warpPerspective` resampler for concrete
runs. -/
def blackWarp : Image → Unit → ℕ → ℕ → Pix := fun _ _ _ _ => (0, 0, 0)

/-- A trivial dimension-respecting instance of the CLAHE channel transform. -/
def idClahe : ℕ → ℕ → (ℕ → ℕ → ℕ) → ℕ → ℕ → ℕ := fun _ _ l => l

/-- A concrete all-black 2x2 test image. -/
def imgSmall : Image := ⟨2, 2, fun _ _ => (0, 0, 0)⟩

/-- The quad of the spec's concrete scenario (a 400x300 source image). -/
def quadC2 : List Point := [(50, 40), (350, 30), (360, 270), (40, 280)]

/-- Four pairwise-distinct points on which `order_points` is not idempotent:
the sums of the second and third points tie, so after ordering, the
bottom-right role jumps to the top-right point of the first pass. -/
def q4cex : List Point := [(0, 0), (5, 5), (6, 4), (1, 2)]

/-- Four points with pairwise-distinct sums and differences. -/
def q4wit : List Point := [(0, 0), (10, 1), (11, 12), (1, 9)]

/-- A five-point corner list. -/
def fivePts : List Point := [(0, 0), (100, 0), (100, 100), (0, 100), (50, 50)]

/-- `i` is the first index of a minimal value of `l`: in range, minimal, and
no earlier index attains the same value. -/
def isFirstMinIdx (l : List ℚ) (i : ℕ) : Prop :=
  i < l.length ∧ (∀ j, j < l.length → l.getD i 0 ≤ l.getD j 0) ∧
    ∀ j, j < l.length → l.getD j 0 = l.getD i 0 → i ≤ j

/-- `i` is the first index of a maximal value of `l`. -/
def isFirstMaxIdx (l : List ℚ) (i : ℕ) : Prop :=
  i < l.length ∧ (∀ j, j < l.length → l.getD j 0 ≤ l.getD i 0) ∧
    ∀ j, j < l.length → l.getD j 0 = l.getD i 0 → i ≤ j

/-! Helper lemmas about `argminGo`/`argmaxGo`: the returned index is in
range, indexes a minimal (resp. maximal) value, and is the first index
attaining that value. -/

theorem argminGo_spec (l : List ℚ) :
    ∀ (L : List ℚ) (bi : ℕ) (bv : ℚ), bi < L.length → L.getD bi 0 = bv →
      (∀ j, j < L.length → bv ≤ L.getD j 0) →
      (∀ j, j < bi → bv < L.getD j 0) →
      argminGo l L.length bi bv < L.length + l.length ∧
      (∀ j, j < L.length + l.length →
        (L ++ l).getD (argminGo l L.length bi bv) 0 ≤ (L ++ l).getD j 0) ∧
      (∀ j, j < argminGo l L.length bi bv →
        (L ++ l).getD (argminGo l L.length bi bv) 0 < (L ++ l).getD j 0) := by
  induction l with
  | nil =>
    intro L bi bv hbi hbv hmin hfirst
    simp only [argminGo, List.append_nil, List.length_nil, Nat.add_zero]
    refine ⟨hbi, fun j hj => ?_, fun j hj => ?_⟩
    · rw [hbv]; exact hmin j hj
    · rw [hbv]; exact hfirst j hj
  | cons v vs ih =>
    intro L bi bv hbi hbv hmin hfirst
    have hLv : (L ++ [v]).length = L.length + 1 := by simp
    have hgetv : (L ++ [v]).getD L.length 0 = v := by
      rw [List.getD_append_right _ _ _ _ (le_refl _)]; simp
    have hassoc : (L ++ [v]) ++ vs = L ++ v :: vs := by simp
    have hlen : L.length + (v :: vs).length = (L ++ [v]).length + vs.length := by
      simp [Nat.add_comm, Nat.add_assoc, Nat.add_left_comm]
    by_cases hv : v < bv
    · have harg : argminGo (v :: vs) L.length bi bv = argminGo vs (L.length + 1) L.length v := by
        simp [argminGo, hv]
    -- the new best index is `L.length`, with value `v`
      have h1 : L.length < (L ++ [v]).length := by simp
      have h2 : ∀ j, j < (L ++ [v]).length → v ≤ (L ++ [v]).getD j 0 := by
        intro j hj
        rcases Nat.lt_or_ge j L.length with hj' | hj'
        · rw [List.getD_append _ _ _ _ hj']
          exact le_of_lt (lt_of_lt_of_le hv (hmin j hj'))
        · have hj'' : j = L.length := by
            rw [hLv] at hj; omega
          rw [hj'', hgetv]
      have h3 : ∀ j, j < L.length → v < (L ++ [v]).getD j 0 := by
        intro j hj
        rw [List.getD_append _ _ _ _ hj]
        exact lt_of_lt_of_le hv (hmin j hj)
      have := ih (L ++ [v]) L.length v h1 hgetv h2 (fun j hj => h3 j hj)
      rw [hLv, hassoc] at this
      rw [harg, hlen, hLv]
      exact this
    · have harg : argminGo (v :: vs) L.length bi bv = argminGo vs (L.length + 1) bi bv := by
        simp [argminGo, hv]
    -- the best index and value are unchanged
      have h1 : bi < (L ++ [v]).length := by rw [hLv]; omega
      have hbv' : (L ++ [v]).getD bi 0 = bv := by
        rw [List.getD_append _ _ _ _ hbi]; exact hbv
      have h2 : ∀ j, j < (L ++ [v]).length → bv ≤ (L ++ [v]).getD j 0 := by
        intro j hj
        rcases Nat.lt_or_ge j L.length with hj' | hj'
        · rw [List.getD_append _ _ _ _ hj']
          exact hmin j hj'
        · have hj'' : j = L.length := by
            rw [hLv] at hj; omega
          rw [hj'', hgetv]
          exact le_of_not_lt hv
      have h3 : ∀ j, j < bi → bv < (L ++ [v]).getD j 0 := by
        intro j hj
        rw [List.getD_append _ _ _ _ (lt_trans hj hbi)]
        exact hfirst j hj
      have := ih (L ++ [v]) bi bv h1 hbv' h2 h3
      rw [hLv, hassoc] at this
      rw [harg, hlen, hLv]
      exact this

theorem argmaxGo_spec (l : List ℚ) :
    ∀ (L : List ℚ) (bi : ℕ) (bv : ℚ), bi < L.length → L.getD bi 0 = bv →
      (∀ j, j < L.length → L.getD j 0 ≤ bv) →
      (∀ j, j < bi → L.getD j 0 < bv) →
      argmaxGo l L.length bi bv < L.length + l.length ∧
      (∀ j, j < L.length + l.length →
        (L ++ l).getD j 0 ≤ (L ++ l).getD (argmaxGo l L.length bi bv) 0) ∧
      (∀ j, j < argmaxGo l L.length bi bv →
        (L ++ l).getD j 0 < (L ++ l).getD (argmaxGo l L.length bi bv) 0) := by
  induction l with
  | nil =>
    intro L bi bv hbi hbv hmax hfirst
    simp only [argmaxGo, List.append_nil, List.length_nil, Nat.add_zero]
    refine ⟨hbi, fun j hj => ?_, fun j hj => ?_⟩
    · rw [hbv]; exact hmax j hj
    · rw [hbv]; exact hfirst j hj
  | cons v vs ih =>
    intro L bi bv hbi hbv hmax hfirst
    have hLv : (L ++ [v]).length = L.length + 1 := by simp
    have hgetv : (L ++ [v]).getD L.length 0 = v := by
      rw [List.getD_append_right _ _ _ _ (le_refl _)]; simp
    have hassoc : (L ++ [v]) ++ vs = L ++ v :: vs := by simp
    have hlen : L.length + (v :: vs).length = (L ++ [v]).length + vs.length := by
      simp [Nat.add_comm, Nat.add_assoc, Nat.add_left_comm]
    by_cases hv : bv < v
    · have harg : argmaxGo (v :: vs) L.length bi bv = argmaxGo vs (L.length + 1) L.length v := by
        simp [argmaxGo, hv]
      have h1 : L.length < (L ++ [v]).length := by simp
      have h2 : ∀ j, j < (L ++ [v]).length → (L ++ [v]).getD j 0 ≤ v := by
        intro j hj
        rcases Nat.lt_or_ge j L.length with hj' | hj'
        · rw [List.getD_append _ _ _ _ hj']
          exact le_of_lt (lt_of_le_of_lt (hmax j hj') hv)
        · have hj'' : j = L.length := by
            rw [hLv] at hj; omega
          rw [hj'', hgetv]
      have h3 : ∀ j, j < L.length → (L ++ [v]).getD j 0 < v := by
        intro j hj
        rw [List.getD_append _ _ _ _ hj]
        exact lt_of_le_of_lt (hmax j hj) hv
      have := ih (L ++ [v]) L.length v h1 hgetv h2 (fun j hj => h3 j hj)
      rw [hLv, hassoc] at this
      rw [harg, hlen, hLv]
      exact this
    · have harg : argmaxGo (v :: vs) L.length bi bv = argmaxGo vs (L.length + 1) bi bv := by
        simp [argmaxGo, hv]
      have h1 : bi < (L ++ [v]).length := by rw [hLv]; omega
      have hbv' : (L ++ [v]).getD bi 0 = bv := by
        rw [List.getD_append _ _ _ _ hbi]; exact hbv
      have h2 : ∀ j, j < (L ++ [v]).length → (L ++ [v]).getD j 0 ≤ bv := by
        intro j hj
        rcases Nat.lt_or_ge j L.length with hj' | hj'
        · rw [List.getD_append _ _ _ _ hj']
          exact hmax j hj'
        · have hj'' : j = L.length := by
            rw [hLv] at hj; omega
          rw [hj'', hgetv]
          exact le_of_not_lt hv
      have h3 : ∀ j, j < bi → (L ++ [v]).getD j 0 < bv := by
        intro j hj
        rw [List.getD_append _ _ _ _ (lt_trans hj hbi)]
        exact hfirst j hj
      have := ih (L ++ [v]) bi bv h1 hbv' h2 h3
      rw [hLv, hassoc] at this
      rw [harg, hlen, hLv]
      exact this

/-- Specification of `argminQ` on a nonempty list: in-range index of a
minimal value, strictly below every earlier value (first occurrence wins). -/
theorem argminQ_spec (l : List ℚ) (h : l ≠ []) :
    argminQ l < l.length ∧
    (∀ j, j < l.length → l.getD (argminQ l) 0 ≤ l.getD j 0) ∧
    (∀ j, j < argminQ l → l.getD (argminQ l) 0 < l.getD j 0) := by
  match l, h with
  | v :: vs, _ =>
    have h0 : (0 : ℕ) < ([v] : List ℚ).length := by simp
    have hb : ([v] : List ℚ).getD 0 0 = v := rfl
    have h1 : ∀ j, j < ([v] : List ℚ).length → v ≤ ([v] : List ℚ).getD j 0 := by
      intro j hj
      have : j = 0 := by simpa using hj
      rw [this, hb]
    have h2 : ∀ j, j < 0 → v < ([v] : List ℚ).getD j 0 := by omega
    have := argminGo_spec vs [v] 0 v h0 hb h1 h2
    simpa [argminQ, Nat.add_comm] using this

/-- Specification of `argmaxQ` on a nonempty list. -/
theorem argmaxQ_spec (l : List ℚ) (h : l ≠ []) :
    argmaxQ l < l.length ∧
    (∀ j, j < l.length → l.getD j 0 ≤ l.getD (argmaxQ l) 0) ∧
    (∀ j, j < argmaxQ l → l.getD j 0 < l.getD (argmaxQ l) 0) := by
  match l, h with
  | v :: vs, _ =>
    have h0 : (0 : ℕ) < ([v] : List ℚ).length := by simp
    have hb : ([v] : List ℚ).getD 0 0 = v := rfl
    have h1 : ∀ j, j < ([v] : List ℚ).length → ([v] : List ℚ).getD j 0 ≤ v := by
      intro j hj
      have : j = 0 := by simpa using hj
      rw [this, hb]
    have h2 : ∀ j, j < 0 → ([v] : List ℚ).getD j 0 < v := by omega
    have := argmaxGo_spec vs [v] 0 v h0 hb h1 h2
    simpa [argmaxQ, Nat.add_comm] using this

theorem getD_map_val (f : Point → ℚ) (pts : List Point) (j : ℕ)
    (hj : j < pts.length) : (pts.map f).getD j 0 = f (pts.getD j (0, 0)) := by
  rw [List.getD_eq_getElem _ _ (by simpa using hj), List.getD_eq_getElem _ _ hj,
    List.getElem_map]

theorem getD_mem_of_lt (pts : List Point) (j : ℕ) (hj : j < pts.length) :
    pts.getD j (0, 0) ∈ pts := by
  rw [List.getD_eq_getElem _ _ hj]
  exact List.getElem_mem hj

/-- The point `order_points` selects with `argmin` over `pts.map f` belongs to
`pts` and minimises `f` there. -/
theorem argmin_select (f : Point → ℚ) (pts : List Point) (h : pts ≠ []) :
    pts.getD (argminQ (pts.map f)) (0, 0) ∈ pts ∧
    ∀ p, p ∈ pts → f (pts.getD (argminQ (pts.map f)) (0, 0)) ≤ f p := by
  have hne : pts.map f ≠ [] := by simpa using h
  obtain ⟨hlt, hmin, -⟩ := argminQ_spec (pts.map f) hne
  rw [List.length_map] at hlt
  refine ⟨getD_mem_of_lt pts _ hlt, fun p hp => ?_⟩
  obtain ⟨j, hj, rfl⟩ := List.getElem_of_mem hp
  have hle := hmin j (by simpa using hj)
  rw [getD_map_val f pts _ hlt, getD_map_val f pts j hj] at hle
  rw [List.getD_eq_getElem _ _ hj] at hle
  exact hle

/-- The point `order_points` selects with `argmax` over `pts.map f` belongs to
`pts` and maximises `f` there. -/
theorem argmax_select (f : Point → ℚ) (pts : List Point) (h : pts ≠ []) :
    pts.getD (argmaxQ (pts.map f)) (0, 0) ∈ pts ∧
    ∀ p, p ∈ pts → f p ≤ f (pts.getD (argmaxQ (pts.map f)) (0, 0)) := by
  have hne : pts.map f ≠ [] := by simpa using h
  obtain ⟨hlt, hmax, -⟩ := argmaxQ_spec (pts.map f) hne
  rw [List.length_map] at hlt
  refine ⟨getD_mem_of_lt pts _ hlt, fun p hp => ?_⟩
  obtain ⟨j, hj, rfl⟩ := List.getElem_of_mem hp
  have hle := hmax j (by simpa using hj)
  rw [getD_map_val f pts _ hlt, getD_map_val f pts j hj] at hle
  rw [List.getD_eq_getElem _ _ hj] at hle
  exact hle

/-- If `m` minimises `f` over a superset of `sub`, `f` is injective on that
superset and `m ∈ sub`, the `argmin` selection over `sub` returns `m`. -/
theorem argmin_select_unique (f : Point → ℚ) (big sub : List Point) (m : Point)
    (hsub : ∀ p, p ∈ sub → p ∈ big) (hne : sub ≠ []) (hm : m ∈ sub)
    (hmin : ∀ p, p ∈ big → f m ≤ f p)
    (hinj : ∀ p, p ∈ big → ∀ q, q ∈ big → f p = f q → p = q) :
    sub.getD (argminQ (sub.map f)) (0, 0) = m := by
  obtain ⟨hmem, hle⟩ := argmin_select f sub hne
  exact hinj _ (hsub _ hmem) _ (hsub _ hm)
    (le_antisymm (hle m hm) (hmin _ (hsub _ hmem)))

/-- If `m` maximises `f` over a superset of `sub`, `f` is injective on that
superset and `m ∈ sub`, the `argmax` selection over `sub` returns `m`. -/
theorem argmax_select_unique (f : Point → ℚ) (big sub : List Point) (m : Point)
    (hsub : ∀ p, p ∈ sub → p ∈ big) (hne : sub ≠ []) (hm : m ∈ sub)
    (hmax : ∀ p, p ∈ big → f p ≤ f m)
    (hinj : ∀ p, p ∈ big → ∀ q, q ∈ big → f p = f q → p = q) :
    sub.getD (argmaxQ (sub.map f)) (0, 0) = m := by
  obtain ⟨hmem, hle⟩ := argmax_select f sub hne
  exact hinj _ (hsub _ hmem) _ (hsub _ hm)
    (le_antisymm (hmax _ (hsub _ hmem)) (hle m hm))

/-- `int(np.sqrt(q))` agrees with the floor of the real square root. -/
theorem intSqrt_eq_natFloor_sqrt (q : ℚ) (hq : 0 ≤ q) :
    intSqrt q = ⌊Real.sqrt (q : ℝ)⌋₊ := by
  have hfl : (0 : ℤ) ≤ ⌊q⌋ := Int.floor_nonneg.mpr hq
  set m : ℕ := (⌊q⌋).toNat with hm
  have hmz : (m : ℤ) = ⌊q⌋ := Int.toNat_of_nonneg hfl
  have hmq : (m : ℝ) ≤ (q : ℝ) := by
    have : ((⌊q⌋ : ℚ)) ≤ q := Int.floor_le q
    have h2 : ((m : ℚ)) ≤ q := by
      rw [show ((m : ℚ)) = ((⌊q⌋ : ℚ)) by exact_mod_cast hmz]
      exact this
    exact_mod_cast h2
  have hqm : (q : ℝ) < (m : ℝ) + 1 := by
    have : q < (⌊q⌋ : ℚ) + 1 := Int.lt_floor_add_one q
    have h2 : q < ((m : ℚ)) + 1 := by
      rw [show ((m : ℚ)) = ((⌊q⌋ : ℚ)) by exact_mod_cast hmz]
      exact this
    exact_mod_cast h2
  rw [intSqrt, ← hm]
  symm
  rw [Nat.floor_eq_iff (Real.sqrt_nonneg _)]
  constructor
  · calc ((Nat.sqrt m : ℕ) : ℝ) ≤ Real.sqrt (m : ℝ) := Real.nat_sqrt_le_real_sqrt
      _ ≤ Real.sqrt (q : ℝ) := Real.sqrt_le_sqrt hmq
  · have hsq : (q : ℝ) < ((Nat.sqrt m : ℝ) + 1) ^ 2 := by
      have h2 : (m : ℕ) + 1 ≤ (Nat.sqrt m + 1) ^ 2 := Nat.succ_le_succ_sqrt' m
      have h3 : ((m : ℝ)) + 1 ≤ ((Nat.sqrt m : ℝ) + 1) ^ 2 := by exact_mod_cast h2
      linarith
    exact (Real.sqrt_lt' (by positivity)).mpr hsq

theorem dist2_nonneg (p q : Point) : 0 ≤ dist2 p q := by
  unfold dist2; positivity

/-- The truncated side length computed by `four_point_transform` is the floor
of the euclidean distance between the two corners. -/
theorem intSqrt_dist2 (p q : Point) :
    intSqrt (dist2 p q) =
      ⌊Real.sqrt (((p.1 : ℝ) - (q.1 : ℝ)) ^ 2 + ((p.2 : ℝ) - (q.2 : ℝ)) ^ 2)⌋₊ := by
  rw [intSqrt_eq_natFloor_sqrt _ (dist2_nonneg p q)]
  congr 1
  push_cast [dist2]
  ring

theorem natFloor_max (a b : ℝ) : ⌊max a b⌋₊ = max ⌊a⌋₊ ⌊b⌋₊ := by
  rcases le_total a b with h | h
  · rw [max_eq_right h, max_eq_right (Nat.floor_le_floor h)]
  · rw [max_eq_left h, max_eq_left (Nat.floor_le_floor h)]

/-- `argminQ` returns the first index of the minimum. -/
theorem argminQ_first (l : List ℚ) (h : l ≠ []) : isFirstMinIdx l (argminQ l) := by
  obtain ⟨h1, h2, h3⟩ := argminQ_spec l h
  refine ⟨h1, h2, fun j hj heq => ?_⟩
  by_contra hlt
  exact absurd (heq ▸ h3 j (by omega)) (lt_irrefl _)

/-- `argmaxQ` returns the first index of the maximum. -/
theorem argmaxQ_first (l : List ℚ) (h : l ≠ []) : isFirstMaxIdx l (argmaxQ l) := by
  obtain ⟨h1, h2, h3⟩ := argmaxQ_spec l h
  refine ⟨h1, h2, fun j hj heq => ?_⟩
  by_contra hlt
  exact absurd (heq ▸ h3 j (by omega)) (lt_irrefl _)

/-- C3: `order_points` assigns the top-left role to a point with minimal
`x + y`, bottom-right to a point with maximal `x + y`, top-right to a point
with minimal `y - x`, and bottom-left to a point with maximal `y - x`. -/
theorem order_points_roles (p0 p1 p2 p3 : Point) :
    ((order_points [p0, p1, p2, p3]).tl ∈ [p0, p1, p2, p3] ∧
      ∀ p ∈ [p0, p1, p2, p3],
        (order_points [p0, p1, p2, p3]).tl.1 + (order_points [p0, p1, p2, p3]).tl.2 ≤
          p.1 + p.2) ∧
    ((order_points [p0, p1, p2, p3]).br ∈ [p0, p1, p2, p3] ∧
      ∀ p ∈ [p0, p1, p2, p3],
        p.1 + p.2 ≤
          (order_points [p0, p1, p2, p3]).br.1 + (order_points [p0, p1, p2, p3]).br.2) ∧
    ((order_points [p0, p1, p2, p3]).tr ∈ [p0, p1, p2, p3] ∧
      ∀ p ∈ [p0, p1, p2, p3],
        (order_points [p0, p1, p2, p3]).tr.2 - (order_points [p0, p1, p2, p3]).tr.1 ≤
          p.2 - p.1) ∧
    ((order_points [p0, p1, p2, p3]).bl ∈ [p0, p1, p2, p3] ∧
      ∀ p ∈ [p0, p1, p2, p3],
        p.2 - p.1 ≤
          (order_points [p0, p1, p2, p3]).bl.2 - (order_points [p0, p1, p2, p3]).bl.1) := by
  have hne : ([p0, p1, p2, p3] : List Point) ≠ [] := by simp
  have h1 := argmin_select (fun p => p.1 + p.2) [p0, p1, p2, p3] hne
  have h2 := argmax_select (fun p => p.1 + p.2) [p0, p1, p2, p3] hne
  have h3 := argmin_select (fun p => p.2 - p.1) [p0, p1, p2, p3] hne
  have h4 := argmax_select (fun p => p.2 - p.1) [p0, p1, p2, p3] hne
  exact ⟨⟨h1.1, fun p hp => h1.2 p hp⟩, ⟨h2.1, fun p hp => h2.2 p hp⟩,
    ⟨h3.1, fun p hp => h3.2 p hp⟩, ⟨h4.1, fun p hp => h4.2 p hp⟩⟩

/-- Witness for C3 at the spec's concrete quad: the top-left sum is at most
the sum of the point (350, 30). -/
theorem order_points_roles_witness :
    (order_points [((50 : ℚ), (40 : ℚ)), (350, 30), (360, 270), (40, 280)]).tl.1 +
      (order_points [((50 : ℚ), (40 : ℚ)), (350, 30), (360, 270), (40, 280)]).tl.2 ≤
      350 + 30 :=
  (order_points_roles (50, 40) (350, 30) (360, 270) (40, 280)).1.2 (350, 30) (by simp)

/-- C10: `order_points` resolves ties by first occurrence: each role is the
point at the first index attaining the extremum of the corresponding metric
(`np.argmin`/`np.argmax` return the first extremal index). -/
theorem order_points_first_index (p0 p1 p2 p3 : Point) :
    order_points [p0, p1, p2, p3] =
      ⟨[p0, p1, p2, p3].getD
          (argminQ ([p0, p1, p2, p3].map (fun p => p.1 + p.2))) (0, 0),
        [p0, p1, p2, p3].getD
          (argminQ ([p0, p1, p2, p3].map (fun p => p.2 - p.1))) (0, 0),
        [p0, p1, p2, p3].getD
          (argmaxQ ([p0, p1, p2, p3].map (fun p => p.1 + p.2))) (0, 0),
        [p0, p1, p2, p3].getD
          (argmaxQ ([p0, p1, p2, p3].map (fun p => p.2 - p.1))) (0, 0)⟩ ∧
    isFirstMinIdx ([p0, p1, p2, p3].map (fun p => p.1 + p.2))
      (argminQ ([p0, p1, p2, p3].map (fun p => p.1 + p.2))) ∧
    isFirstMaxIdx ([p0, p1, p2, p3].map (fun p => p.1 + p.2))
      (argmaxQ ([p0, p1, p2, p3].map (fun p => p.1 + p.2))) ∧
    isFirstMinIdx ([p0, p1, p2, p3].map (fun p => p.2 - p.1))
      (argminQ ([p0, p1, p2, p3].map (fun p => p.2 - p.1))) ∧
    isFirstMaxIdx ([p0, p1, p2, p3].map (fun p => p.2 - p.1))
      (argmaxQ ([p0, p1, p2, p3].map (fun p => p.2 - p.1))) := by
  have hs : ([p0, p1, p2, p3].map (fun p => p.1 + p.2)) ≠ [] := by simp
  have hd : ([p0, p1, p2, p3].map (fun p => p.2 - p.1)) ≠ [] := by simp
  exact ⟨rfl, argminQ_first _ hs, argmaxQ_first _ hs, argminQ_first _ hd,
    argmaxQ_first _ hd⟩

/-- Witness for C10 on a quad with a three-way tie on the sum metric
(`[(1,1), (2,0), (0,2), (0,0)]` has sums `[2, 2, 2, 0]`): the bottom-right
role goes to the first maximal index, index 0. -/
theorem order_points_first_index_witness :
    argmaxQ ([((1 : ℚ), (1 : ℚ)), (2, 0), (0, 2), (0, 0)].map (fun p => p.1 + p.2)) ≤ 0 :=
  ((order_points_first_index (1, 1) (2, 0) (0, 2) (0, 0)).2.2.1).2.2 0 (by norm_num)
    (by norm_num [argmaxQ, argmaxGo])

/-- C4 (amended): `order_points` is idempotent on its own output for quads
whose four sums `x + y` are pairwise distinct and whose four differences
`y - x` are pairwise distinct.  (Pairwise-distinct points alone are not
enough; see the counterexample.) -/
theorem order_points_idem (p0 p1 p2 p3 : Point)
    (hs01 : p0.1 + p0.2 ≠ p1.1 + p1.2) (hs02 : p0.1 + p0.2 ≠ p2.1 + p2.2)
    (hs03 : p0.1 + p0.2 ≠ p3.1 + p3.2) (hs12 : p1.1 + p1.2 ≠ p2.1 + p2.2)
    (hs13 : p1.1 + p1.2 ≠ p3.1 + p3.2) (hs23 : p2.1 + p2.2 ≠ p3.1 + p3.2)
    (hd01 : p0.2 - p0.1 ≠ p1.2 - p1.1) (hd02 : p0.2 - p0.1 ≠ p2.2 - p2.1)
    (hd03 : p0.2 - p0.1 ≠ p3.2 - p3.1) (hd12 : p1.2 - p1.1 ≠ p2.2 - p2.1)
    (hd13 : p1.2 - p1.1 ≠ p3.2 - p3.1) (hd23 : p2.2 - p2.1 ≠ p3.2 - p3.1) :
    order_points ((order_points [p0, p1, p2, p3]).toList) =
      order_points [p0, p1, p2, p3] := by
  have hne : ([p0, p1, p2, p3] : List Point) ≠ [] := by simp
  have hinj_s : ∀ p, p ∈ ([p0, p1, p2, p3] : List Point) →
      ∀ q, q ∈ ([p0, p1, p2, p3] : List Point) → p.1 + p.2 = q.1 + q.2 → p = q := by
    intro p hp q hq heq
    simp only [List.mem_cons, List.not_mem_nil, or_false] at hp hq
    rcases hp with rfl | rfl | rfl | rfl <;> rcases hq with rfl | rfl | rfl | rfl <;>
      first
        | rfl
        | exact absurd heq (by assumption)
        | exact absurd heq.symm (by assumption)
  have hinj_d : ∀ p, p ∈ ([p0, p1, p2, p3] : List Point) →
      ∀ q, q ∈ ([p0, p1, p2, p3] : List Point) → p.2 - p.1 = q.2 - q.1 → p = q := by
    intro p hp q hq heq
    simp only [List.mem_cons, List.not_mem_nil, or_false] at hp hq
    rcases hp with rfl | rfl | rfl | rfl <;> rcases hq with rfl | rfl | rfl | rfl <;>
      first
        | rfl
        | exact absurd heq (by assumption)
        | exact absurd heq.symm (by assumption)
  have hTL := argmin_select (fun p => p.1 + p.2) [p0, p1, p2, p3] hne
  have hBR := argmax_select (fun p => p.1 + p.2) [p0, p1, p2, p3] hne
  have hTR := argmin_select (fun p => p.2 - p.1) [p0, p1, p2, p3] hne
  have hBL := argmax_select (fun p => p.2 - p.1) [p0, p1, p2, p3] hne
  have hsub : ∀ p, p ∈ (order_points [p0, p1, p2, p3]).toList →
      p ∈ ([p0, p1, p2, p3] : List Point) := by
    intro p hp
    simp only [Rect.toList, List.mem_cons, List.not_mem_nil, or_false] at hp
    rcases hp with rfl | rfl | rfl | rfl
    · exact hTL.1
    · exact hTR.1
    · exact hBR.1
    · exact hBL.1
  have hne2 : (order_points [p0, p1, p2, p3]).toList ≠ [] := by simp [Rect.toList]
  have htl2 : (order_points ((order_points [p0, p1, p2, p3]).toList)).tl =
      (order_points [p0, p1, p2, p3]).tl :=
    argmin_select_unique (fun p => p.1 + p.2) [p0, p1, p2, p3] _ _ hsub hne2
      (by simp [Rect.toList]) hTL.2 hinj_s
  have hbr2 : (order_points ((order_points [p0, p1, p2, p3]).toList)).br =
      (order_points [p0, p1, p2, p3]).br :=
    argmax_select_unique (fun p => p.1 + p.2) [p0, p1, p2, p3] _ _ hsub hne2
      (by simp [Rect.toList]) hBR.2 hinj_s
  have htr2 : (order_points ((order_points [p0, p1, p2, p3]).toList)).tr =
      (order_points [p0, p1, p2, p3]).tr :=
    argmin_select_unique (fun p => p.2 - p.1) [p0, p1, p2, p3] _ _ hsub hne2
      (by simp [Rect.toList]) hTR.2 hinj_d
  have hbl2 : (order_points ((order_points [p0, p1, p2, p3]).toList)).bl =
      (order_points [p0, p1, p2, p3]).bl :=
    argmax_select_unique (fun p => p.2 - p.1) [p0, p1, p2, p3] _ _ hsub hne2
      (by simp [Rect.toList]) hBL.2 hinj_d
  calc order_points ((order_points [p0, p1, p2, p3]).toList)
      = ⟨(order_points ((order_points [p0, p1, p2, p3]).toList)).tl,
          (order_points ((order_points [p0, p1, p2, p3]).toList)).tr,
          (order_points ((order_points [p0, p1, p2, p3]).toList)).br,
          (order_points ((order_points [p0, p1, p2, p3]).toList)).bl⟩ := rfl
    _ = ⟨(order_points [p0, p1, p2, p3]).tl, (order_points [p0, p1, p2, p3]).tr,
          (order_points [p0, p1, p2, p3]).br, (order_points [p0, p1, p2, p3]).bl⟩ := by
        rw [htl2, htr2, hbr2, hbl2]
    _ = order_points [p0, p1, p2, p3] := rfl

/-- Counterexample to C4 as stated: the four points of `q4cex` are pairwise
distinct, yet `order_points` is not idempotent on its own output (the sums of
(5,5) and (6,4) tie, so on the second pass the bottom-right role jumps to the
first-listed of the tying points, which by then is the top-right point). -/
theorem order_points_idem_cex :
    (((0 : ℚ), (0 : ℚ)) : Point) ≠ (5, 5) ∧ (((0 : ℚ), (0 : ℚ)) : Point) ≠ (6, 4) ∧
    (((0 : ℚ), (0 : ℚ)) : Point) ≠ (1, 2) ∧ (((5 : ℚ), (5 : ℚ)) : Point) ≠ (6, 4) ∧
    (((5 : ℚ), (5 : ℚ)) : Point) ≠ (1, 2) ∧ (((6 : ℚ), (4 : ℚ)) : Point) ≠ (1, 2) ∧
    order_points ((order_points q4cex).toList) ≠ order_points q4cex := by
  refine ⟨by norm_num [Prod.ext_iff], by norm_num [Prod.ext_iff],
    by norm_num [Prod.ext_iff], by norm_num [Prod.ext_iff],
    by norm_num [Prod.ext_iff], by norm_num [Prod.ext_iff], ?_⟩
  intro h
  have hbr := congrArg Rect.br h
  simp only [order_points, Rect.toList, q4cex] at hbr
  norm_num [argminQ, argminGo, argmaxQ, argmaxGo] at hbr

/-- Witness for C4 (amended) on a quad with pairwise-distinct sums and
differences. -/
theorem order_points_idem_witness :
    order_points ((order_points q4wit).toList) = order_points q4wit := by
  have h := order_points_idem (0, 0) (10, 1) (11, 12) (1, 9)
    (by norm_num) (by norm_num) (by norm_num) (by norm_num) (by norm_num)
    (by norm_num) (by norm_num) (by norm_num) (by norm_num) (by norm_num)
    (by norm_num) (by norm_num)
  simpa [q4wit] using h

/-- C1: for every image and every four-point quad, `four_point_transform`
succeeds and its output has width and height at least 100. -/
theorem four_point_transform_min_dims {Mt : Type} (getPT : Rect → Rect → Mt)
    (warpPix : Image → Mt → ℕ → ℕ → Pix) (image : Image) (p0 p1 p2 p3 : Point) :
    ∃ out, four_point_transform getPT warpPix image [p0, p1, p2, p3] = .ok out ∧
      100 ≤ out.width ∧ 100 ≤ out.height := by
  simp only [four_point_transform, if_neg (by simp : ¬([p0, p1, p2, p3] = []))]
  exact ⟨_, rfl, Nat.le_max_right _ _, Nat.le_max_right _ _⟩

/-- C9: for every image, `four_point_transform` on a quad of four identical
points succeeds (no failure) and returns an image of exactly 100 x 100. -/
theorem four_point_transform_degenerate {Mt : Type} (getPT : Rect → Rect → Mt)
    (warpPix : Image → Mt → ℕ → ℕ → Pix) (image : Image) (p : Point) :
    ∃ out, four_point_transform getPT warpPix image [p, p, p, p] = .ok out ∧
      out.width = 100 ∧ out.height = 100 := by
  simp only [four_point_transform, if_neg (by simp : ¬([p, p, p, p] = []))]
  refine ⟨_, rfl, ?_, ?_⟩ <;>
    simp [order_points, argminQ, argminGo, argmaxQ, argmaxGo, dist2, intSqrt]

/-- C8: `process_document_from_array` with enhancement and border both
disabled returns exactly the output of `four_point_transform`. -/
theorem process_plain_eq_rectify {Mt : Type} (getPT : Rect → Rect → Mt)
    (warpPix : Image → Mt → ℕ → ℕ → Pix) (bgr2lab lab2bgr : Pix → Pix)
    (claheL : ℕ → ℕ → (ℕ → ℕ → ℕ) → ℕ → ℕ → ℕ) (image : Image)
    (corners : List Point) :
    process_document_from_array getPT warpPix bgr2lab lab2bgr claheL image
        corners false false =
      four_point_transform getPT warpPix image corners := by
  cases h : four_point_transform getPT warpPix image corners <;>
    simp [process_document_from_array, h]

/-- C6: `add_white_border` fails with `InvalidInput` for every negative
padding. -/
theorem add_white_border_neg (image : Image) (padding : ℤ) (h : padding < 0) :
    add_white_border image padding = .error .InvalidInput := by
  simp [add_white_border, h]

/-- Witness for C6 at padding -1. -/
theorem add_white_border_neg_witness :
    add_white_border imgSmall (-1) = .error .InvalidInput :=
  add_white_border_neg imgSmall (-1) (by norm_num)

/-- C7 (amended): `four_point_transform` does not validate the corner count:
it fails only on an empty corner list (with numpy's `ValueError`, not
`InvalidInput`), and succeeds on every nonempty corner list of any length
(the `len(corners) == 4` check lives in the `/scan` endpoint of `server.py`,
not in the transform). -/
theorem four_point_transform_arity {Mt : Type} (getPT : Rect → Rect → Mt)
    (warpPix : Image → Mt → ℕ → ℕ → Pix) (image : Image) (pts : List Point) :
    (pts = [] → four_point_transform getPT warpPix image pts = .error .ValueError) ∧
    (pts ≠ [] → ∃ out, four_point_transform getPT warpPix image pts = .ok out) := by
  constructor
  · intro h
    simp [four_point_transform, h]
  · intro h
    simp only [four_point_transform, if_neg h]
    exact ⟨_, rfl⟩

/-- Witness for C7 (amended): the empty list fails with `ValueError`, while a
five-point list succeeds. -/
theorem four_point_transform_arity_witness :
    four_point_transform unitPT blackWarp imgSmall [] = .error .ValueError ∧
    ∃ out, four_point_transform unitPT blackWarp imgSmall fivePts = .ok out :=
  ⟨(four_point_transform_arity unitPT blackWarp imgSmall []).1 rfl,
    (four_point_transform_arity unitPT blackWarp imgSmall fivePts).2
      (by simp [fivePts])⟩

/-- Counterexample to C7 as stated: a five-point corner list (length 5, not
4) does not make `four_point_transform` fail with `InvalidInput` — the call
succeeds. -/
theorem four_point_transform_arity_cex :
    fivePts.length ≠ 4 ∧
    four_point_transform unitPT blackWarp imgSmall fivePts ≠ .error .InvalidInput := by
  constructor
  · simp [fivePts]
  · intro h
    simp only [four_point_transform, if_neg (by simp [fivePts] : ¬(fivePts = []))] at h
    exact Except.noConfusion h

theorem intSqrt_eq_of_sq_le (q : ℚ) (n m : ℕ) (hq : q = (m : ℚ))
    (h1 : n ^ 2 ≤ m) (h2 : m < (n + 1) ^ 2) : intSqrt q = n := by
  rw [hq, intSqrt, Int.floor_natCast, Int.toNat_natCast]
  exact (Nat.eq_sqrt'.mpr ⟨h1, h2⟩).symm

theorem add_white_border_dims (image : Image) (padding : ℤ) (h : 0 ≤ padding) :
    ∃ out, add_white_border image padding = .ok out ∧
      out.width = image.width + 2 * padding.toNat ∧
      out.height = image.height + 2 * padding.toNat := by
  simp only [add_white_border, if_neg (not_lt.mpr h)]
  exact ⟨_, rfl, rfl, rfl⟩

theorem enhance_document_dims (bgr2lab lab2bgr : Pix → Pix)
    (claheL : ℕ → ℕ → (ℕ → ℕ → ℕ) → ℕ → ℕ → ℕ) (image : Image)
    (b c : ℤ) :
    (enhance_document bgr2lab lab2bgr claheL image b c).width = image.width ∧
    (enhance_document bgr2lab lab2bgr claheL image b c).height = image.height := by
  unfold enhance_document claheStage cvtColorPix
  by_cases h : b ≠ 0 ∨ c ≠ 0 <;> simp [h]

/-- C2: the output width of `four_point_transform` is the floor of
`max(euclid(BR, BL), euclid(TR, TL))` (with the 100 floor) and the height the
floor of `max(euclid(TR, BR), euclid(TL, BL))`; on the spec's concrete quad
the ordered corners are TL=(50,40), TR=(350,30), BR=(360,270), BL=(40,280),
the pre-border output is 320 x 240, and the output of the full pipeline with
the default 20-pixel border is 360 x 280. -/
theorem four_point_transform_dims :
    (∀ (Mt : Type) (getPT : Rect → Rect → Mt) (warpPix : Image → Mt → ℕ → ℕ → Pix)
      (image : Image) (p0 p1 p2 p3 : Point),
      ∃ out, four_point_transform getPT warpPix image [p0, p1, p2, p3] = .ok out ∧
        out.width = max ⌊max
          (Real.sqrt ((((order_points [p0, p1, p2, p3]).br.1 : ℝ) -
              ((order_points [p0, p1, p2, p3]).bl.1 : ℝ)) ^ 2 +
            (((order_points [p0, p1, p2, p3]).br.2 : ℝ) -
              ((order_points [p0, p1, p2, p3]).bl.2 : ℝ)) ^ 2))
          (Real.sqrt ((((order_points [p0, p1, p2, p3]).tr.1 : ℝ) -
              ((order_points [p0, p1, p2, p3]).tl.1 : ℝ)) ^ 2 +
            (((order_points [p0, p1, p2, p3]).tr.2 : ℝ) -
              ((order_points [p0, p1, p2, p3]).tl.2 : ℝ)) ^ 2))⌋₊ 100 ∧
        out.height = max ⌊max
          (Real.sqrt ((((order_points [p0, p1, p2, p3]).tr.1 : ℝ) -
              ((order_points [p0, p1, p2, p3]).br.1 : ℝ)) ^ 2 +
            (((order_points [p0, p1, p2, p3]).tr.2 : ℝ) -
              ((order_points [p0, p1, p2, p3]).br.2 : ℝ)) ^ 2))
          (Real.sqrt ((((order_points [p0, p1, p2, p3]).tl.1 : ℝ) -
              ((order_points [p0, p1, p2, p3]).bl.1 : ℝ)) ^ 2 +
            (((order_points [p0, p1, p2, p3]).tl.2 : ℝ) -
              ((order_points [p0, p1, p2, p3]).bl.2 : ℝ)) ^ 2))⌋₊ 100) ∧
    order_points quadC2 = ⟨(50, 40), (350, 30), (360, 270), (40, 280)⟩ ∧
    (∀ (Mt : Type) (getPT : Rect → Rect → Mt) (warpPix : Image → Mt → ℕ → ℕ → Pix)
      (image : Image),
      ∃ out, four_point_transform getPT warpPix image quadC2 = .ok out ∧
        out.width = 320 ∧ out.height = 240) ∧
    (∀ (Mt : Type) (getPT : Rect → Rect → Mt) (warpPix : Image → Mt → ℕ → ℕ → Pix)
      (bgr2lab lab2bgr : Pix → Pix) (claheL : ℕ → ℕ → (ℕ → ℕ → ℕ) → ℕ → ℕ → ℕ)
      (image : Image),
      ∃ out, process_document_from_array getPT warpPix bgr2lab lab2bgr claheL
          image quadC2 true true = .ok out ∧
        out.width = 360 ∧ out.height = 280) := by
  have hop : order_points quadC2 = ⟨(50, 40), (350, 30), (360, 270), (40, 280)⟩ := by
    simp only [order_points, quadC2]
    norm_num [argminQ, argminGo, argmaxQ, argmaxGo]
  have hwA : intSqrt (dist2 ((360 : ℚ), (270 : ℚ)) ((40 : ℚ), (280 : ℚ))) = 320 :=
    intSqrt_eq_of_sq_le _ 320 102500 (by norm_num [dist2]) (by norm_num) (by norm_num)
  have hwB : intSqrt (dist2 ((350 : ℚ), (30 : ℚ)) ((50 : ℚ), (40 : ℚ))) = 300 :=
    intSqrt_eq_of_sq_le _ 300 90100 (by norm_num [dist2]) (by norm_num) (by norm_num)
  have hhA : intSqrt (dist2 ((350 : ℚ), (30 : ℚ)) ((360 : ℚ), (270 : ℚ))) = 240 :=
    intSqrt_eq_of_sq_le _ 240 57700 (by norm_num [dist2]) (by norm_num) (by norm_num)
  have hhB : intSqrt (dist2 ((50 : ℚ), (40 : ℚ)) ((40 : ℚ), (280 : ℚ))) = 240 :=
    intSqrt_eq_of_sq_le _ 240 57700 (by norm_num [dist2]) (by norm_num) (by norm_num)
  have hconc : ∀ (Mt : Type) (getPT : Rect → Rect → Mt)
      (warpPix : Image → Mt → ℕ → ℕ → Pix) (image : Image),
      ∃ out, four_point_transform getPT warpPix image quadC2 = .ok out ∧
        out.width = 320 ∧ out.height = 240 := by
    intro Mt getPT warpPix image
    simp only [four_point_transform, if_neg (by simp [quadC2] : ¬(quadC2 = []))]
    refine ⟨_, rfl, ?_, ?_⟩
    · rw [hop]
      show max (max (intSqrt (dist2 (360, 270) (40, 280)))
        (intSqrt (dist2 (350, 30) (50, 40)))) 100 = 320
      rw [hwA, hwB]
      omega
    · rw [hop]
      show max (max (intSqrt (dist2 (350, 30) (360, 270)))
        (intSqrt (dist2 (50, 40) (40, 280)))) 100 = 240
      rw [hhA, hhB]
      omega
  refine ⟨?_, hop, hconc, ?_⟩
  · intro Mt getPT warpPix image p0 p1 p2 p3
    simp only [four_point_transform, if_neg (by simp : ¬([p0, p1, p2, p3] = []))]
    refine ⟨_, rfl, ?_, ?_⟩
    · rw [natFloor_max, ← intSqrt_dist2, ← intSqrt_dist2]
    · rw [natFloor_max, ← intSqrt_dist2, ← intSqrt_dist2]
  · intro Mt getPT warpPix bgr2lab lab2bgr claheL image
    obtain ⟨out, hok, hW, hH⟩ := hconc Mt getPT warpPix image
    obtain ⟨heW, heH⟩ := enhance_document_dims bgr2lab lab2bgr claheL out 0 0
    obtain ⟨res, hres, hrW, hrH⟩ :=
      add_white_border_dims (enhance_document bgr2lab lab2bgr claheL out 0 0) 20
        (by norm_num)
    have hproc : process_document_from_array getPT warpPix bgr2lab lab2bgr claheL
        image quadC2 true true =
        add_white_border (enhance_document bgr2lab lab2bgr claheL out 0 0) 20 := by
      simp [process_document_from_array, hok]
    refine ⟨res, ?_, ?_, ?_⟩
    · rw [hproc, hres]
    · rw [hrW, heW, hW]; decide
    · rw [hrH, heH, hH]; decide

theorem rnd_nonneg (q : ℚ) (h : 0 ≤ q) : 0 ≤ rnd q := by
  have h0 : (0 : ℤ) ≤ ⌊q⌋ := Int.floor_nonneg.mpr h
  unfold rnd
  split_ifs <;> omega

theorem toNat_clamp (x : ℤ) :
    min x.toNat 255 = (min (max x 0) 255).toNat := by
  omega

/-- C5 (amended): when `brightness != 0 or contrast != 0`,
`enhance_document` applies `cv2.convertScaleAbs` to every pixel of the CLAHE
stage output, i.e. the per-channel map `clamp(|alpha*v + beta|, 0, 255)`
(saturated ABSOLUTE value, not the clamp of the signed value), with
`beta = brightness` and `alpha = 1 + contrast/100`, uniformly across all
channels; when both are zero, the affine step is not applied. -/
theorem enhance_document_affine (bgr2lab lab2bgr : Pix → Pix)
    (claheL : ℕ → ℕ → (ℕ → ℕ → ℕ) → ℕ → ℕ → ℕ) (image : Image)
    (brightness contrast : ℤ) :
    ((brightness ≠ 0 ∨ contrast ≠ 0) → ∀ x y,
      (enhance_document bgr2lab lab2bgr claheL image brightness contrast).pix x y =
        convertScaleAbsPix (1 + (contrast : ℚ) / 100) (brightness : ℚ)
          ((claheStage bgr2lab lab2bgr claheL image).pix x y)) ∧
    (∀ (a b : ℚ) (v : ℕ), convertScaleAbsChan a b v =
      (min (max (rnd |a * v + b|) 0) 255).toNat) ∧
    (brightness = 0 → contrast = 0 →
      enhance_document bgr2lab lab2bgr claheL image brightness contrast =
        claheStage bgr2lab lab2bgr claheL image) := by
  refine ⟨fun h x y => ?_, fun a b v => ?_, fun hb hc => ?_⟩
  · rw [enhance_document, if_pos h]
  · rw [convertScaleAbsChan, toNat_clamp]
  · simp [enhance_document, hb, hc]

/-- Witness for C5 (amended) on a 2x2 black image with brightness -50,
contrast 0, and the trivial no-op colour/CLAHE primitives. -/
theorem enhance_document_affine_witness :
    ((-50 : ℤ) ≠ 0 ∨ (0 : ℤ) ≠ 0) ∧
    (enhance_document id id idClahe imgSmall (-50) 0).pix 0 0 =
      convertScaleAbsPix (1 + ((0 : ℤ) : ℚ) / 100) (((-50 : ℤ) : ℚ))
        ((claheStage id id idClahe imgSmall).pix 0 0) ∧
    enhance_document id id idClahe imgSmall 0 0 = claheStage id id idClahe imgSmall :=
  ⟨Or.inl (by norm_num),
    (enhance_document_affine id id idClahe imgSmall (-50) 0).1
      (Or.inl (by norm_num)) 0 0,
    (enhance_document_affine id id idClahe imgSmall 0 0).2.2 rfl rfl⟩

/-- Counterexample to C5 as stated: on a black image with brightness -50 and
contrast 0 (alpha = 1, beta = -50) the code's map yields 50 on every channel
(`|1*0 - 50| = 50`), whereas the spec's `clamp(alpha*v + beta, 0, 255)`
yields 0. -/
theorem enhance_clamp_cex :
    (claheStage id id idClahe imgSmall).pix 0 0 = (0, 0, 0) ∧
    (enhance_document id id idClahe imgSmall (-50) 0).pix 0 0 = (50, 50, 50) ∧
    specClampChan 1 (-50) 0 = 0 := by
  refine ⟨rfl, ?_, ?_⟩
  · have h : ((-50 : ℤ) ≠ 0 ∨ (0 : ℤ) ≠ 0) := Or.inl (by norm_num)
    simp only [enhance_document, if_pos h]
    show convertScaleAbsPix (1 + ((0 : ℤ) : ℚ) / 100) (((-50 : ℤ) : ℚ)) (0, 0, 0) =
      (50, 50, 50)
    norm_num [convertScaleAbsPix, convertScaleAbsChan, rnd]
    decide
  · norm_num [specClampChan, rnd]

end DocScanner
